import Mathlib

/-
Verification of the search query compiler of gcselog-search-new
(src/index.js, GET /search handler).

The handler is embedded shallowly: the request after destructuring
defaults is a `Req`; the WHERE-filter building (lines 28-61) is
`buildFilters`/`whereClauseOf`; sort parsing (lines 63-69) is
`orderBy`; the three strategy branches (lines 73-133) are `compile`,
which produces a `QueryPlan` (strategy tag, SQL text, ordered
parameter list).  JavaScript string splitting and joining are
translated by the structurally recursive `splitChars` and `joinSep`
so that every definition evaluates inside the kernel.  The embedding
vector returned by the collaborating embedding service is an input of
`compile` (the service itself is out of scope of the spec).
-/

set_option maxRecDepth 16384

namespace GLSearch

/-- Translation of the JavaScript String.prototype.split with a
one-character separator: splits on every occurrence of the separator,
and the empty string yields one empty segment. -/
def splitChars (sep : Char) : List Char → List (List Char)
  | [] => [[]]
  | c :: rest =>
    if c = sep then [] :: splitChars sep rest
    else
      match splitChars sep rest with
      | [] => [[c]]
      | s :: ss => (c :: s) :: ss

/-- Translation of Array.prototype.join. -/
def joinSep (sep : String) : List String → String
  | [] => ""
  | [x] => x
  | x :: y :: rest => x ++ sep ++ joinSep sep (y :: rest)

/-- Positional placeholder text: the template piece written in the
source as a dollar sign followed by the current parameter index. -/
def ph (i : Nat) : String := "$" ++ toString i

/-- Canonical search request: the request.query fields after the
destructuring defaults of lines 14-26 have been applied (query, tags,
subject, examboard, level, type default to the empty string; limit,
offset, sort, fuzzy, semantic default to 20, 0, averagerating:desc,
true, false respectively; every field reaches the handler as text). -/
structure Req where
  query : String
  tags : String
  subject : String
  examboard : String
  level : String
  type : String
  limit : String
  offset : String
  sort : String
  fuzzy : String
  semantic : String
deriving DecidableEq, Repr

/-- Line 28: parsedTags = tags ? tags.toString().split(",") : []. -/
def parsedTags (tags : String) : List String :=
  if tags ≠ "" then (splitChars (Char.ofNat 44) tags.data).map String.mk else []

/-- The mutable triple of lines 31-33: the filter fragments, the bound
values, and the next free parameter index. -/
structure FilterState where
  filters : List String
  values : List String
  paramIndex : Nat
deriving DecidableEq, Repr

/-- One per-tag containment fragment of line 38. -/
def tagFrag (i : Nat) : String := "\"tags\" @> ARRAY[" ++ ph i ++ "]"

/-- Lines 35-42: when tags are present, push the per-tag fragments
joined with AND as one filters entry (each tag consuming one
parameter slot via the post-increment), and push all tag values. -/
def tagStep (ts : List String) (st : FilterState) : FilterState :=
  if ts.length > 0 then
    ⟨st.filters ++ [joinSep " AND " ((List.range' st.paramIndex ts.length).map tagFrag)],
     st.values ++ ts, st.paramIndex + ts.length⟩
  else st

/-- Lines 43-58: each non-empty scalar filter pushes one equality
fragment bound at the current parameter index and its value. -/
def scalarStep (cond : Bool) (name v : String) (st : FilterState) : FilterState :=
  if cond then
    ⟨st.filters ++ [name ++ ph st.paramIndex], st.values ++ [v], st.paramIndex + 1⟩
  else st

/-- Lines 28-58: the full filter-building pass, tags first, then
subject, examboard, level, type in that order. -/
def buildFilters (r : Req) : FilterState :=
  scalarStep (r.type != "") "\"type\" = " r.type
    (scalarStep (r.level != "") "\"level\" = " r.level
      (scalarStep (r.examboard != "") "\"examboard\" = " r.examboard
        (scalarStep (r.subject != "") "\"subject\" = " r.subject
          (tagStep (parsedTags r.tags) ⟨[], [], 1⟩))))

/-- Lines 60-61: the WHERE clause. -/
def whereClauseOf (st : FilterState) : String :=
  if st.filters.length > 0 then "WHERE " ++ joinSep " AND " st.filters else ""

/-- Line 64: const [sortField, sortDir] = sort.toString().split(":"),
which splits on every colon and destructures the first two segments. -/
def sortParts (sort : String) : List String :=
  (splitChars (Char.ofNat 58) sort.data).map String.mk

/-- The first segment of the split sort value. -/
def sortFieldOf (sort : String) : String := (sortParts sort).headD ""

/-- The second segment of the split sort value, absent when the value
contains no colon. -/
def sortDirOf (sort : String) : Option String := (sortParts sort)[1]?

/-- Lines 65-66: any direction other than exactly asc or desc
collapses to desc. -/
def validSortDir (sort : String) : String :=
  if sortDirOf sort = some "asc" ∨ sortDirOf sort = some "desc" then
    (sortDirOf sort).getD "desc"
  else "desc"

/-- Lines 67-69: the ORDER BY fragment; an empty field falls back to
the literal averagerating DESC, otherwise the raw field is quoted and
interpolated with the validated direction. -/
def orderBy (sort : String) : String :=
  if sortFieldOf sort ≠ "" then
    "\"" ++ sortFieldOf sort ++ "\" " ++ validSortDir sort
  else "\"averagerating\" DESC"

/-- Which of the three mutually exclusive branches of lines 74-133 ran. -/
inductive Strategy where
  | semantic
  | fulltext
  | filterOnly
deriving DecidableEq, Repr

/-- The compiled artifact: strategy tag, query text, ordered parameter
list. -/
structure QueryPlan where
  strategy : Strategy
  sql : String
  values : List String
deriving DecidableEq, Repr

/-- Lines 83-90: the semantic-branch SQL template. -/
def semanticSqlText (idx : Nat) (wc ob : String) : String :=
  "\n        SELECT id, title, description, \"averagerating\", subject, \"examboard\", level, type,\n               1 - (embedding <-> "
  ++ ph idx
  ++ ") AS semantic_score\n        FROM resources\n        "
  ++ wc
  ++ "\n        ORDER BY semantic_score DESC, "
  ++ ob
  ++ "\n        LIMIT " ++ ph (idx + 1) ++ " OFFSET " ++ ph (idx + 2) ++ ";\n      "

/-- Lines 97-105: the full-text search condition; returns the
condition fragment, the values pushed (the query once, or twice when
fuzzy is enabled), and the parameter index after the increments. -/
def searchConditionOf (fuzzy query : String) (idx : Nat) : String × List String × Nat :=
  if fuzzy = "true" then
    ("(" ++ ("\"search_tsv\" @@ plainto_tsquery(\x27english\x27, " ++ ph idx ++ ")")
       ++ " OR \"title\" % " ++ ph (idx + 1) ++ ")",
     [query, query], idx + 2)
  else
    ("\"search_tsv\" @@ plainto_tsquery(\x27english\x27, " ++ ph idx ++ ")",
     [query], idx + 1)

/-- Lines 107-115: the full-text-branch SQL template; the projected
rank and fuzzy_score columns reference the hard-coded first
placeholder. -/
def fullTextSqlText (wc sc ob : String) (idx2 : Nat) : String :=
  "\n        SELECT id, title, description, \"averagerating\", subject, \"examboard\", level, type,\n               ts_rank(\"search_tsv\", plainto_tsquery(\x27english\x27, "
  ++ ph 1
  ++ ")) AS rank,\n               similarity(\"title\", "
  ++ ph 1
  ++ ") AS fuzzy_score\n        FROM \"resources\"\n        "
  ++ (if wc ≠ "" then wc ++ " AND " else "WHERE ")
  ++ " " ++ sc
  ++ "\n        ORDER BY rank DESC, fuzzy_score DESC, "
  ++ ob
  ++ "\n        LIMIT " ++ ph idx2 ++ " OFFSET " ++ ph (idx2 + 1) ++ ";\n      "

/-- Lines 122-128: the filter-only SQL template. -/
def filterOnlySqlText (wc ob : String) (idx : Nat) : String :=
  "\n        SELECT id, title, description, \"averagerating\", subject, \"examboard\", level, type\n        FROM \"resources\"\n        "
  ++ wc
  ++ "\n        ORDER BY "
  ++ ob
  ++ "\n        LIMIT " ++ ph idx ++ " OFFSET " ++ ph (idx + 1) ++ ";\n      "

/-- Lines 73-133: strategy selection and query compilation.  The
embedding vector (the numbers already rendered as text, as the source
joins them with commas into one literal on line 81) is an input,
standing for the collaborating embedding-service response. -/
def compile (r : Req) (embedding : List String) : QueryPlan :=
  if r.semantic = "true" ∧ r.query ≠ "" then
    ⟨Strategy.semantic,
     semanticSqlText (buildFilters r).paramIndex (whereClauseOf (buildFilters r))
       (orderBy r.sort),
     (buildFilters r).values ++ ["[" ++ joinSep "," embedding ++ "]", r.limit, r.offset]⟩
  else if r.query ≠ "" then
    ⟨Strategy.fulltext,
     fullTextSqlText (whereClauseOf (buildFilters r))
       (searchConditionOf r.fuzzy r.query (buildFilters r).paramIndex).1
       (orderBy r.sort)
       (searchConditionOf r.fuzzy r.query (buildFilters r).paramIndex).2.2,
     (buildFilters r).values
       ++ (searchConditionOf r.fuzzy r.query (buildFilters r).paramIndex).2.1
       ++ [r.limit, r.offset]⟩
  else
    ⟨Strategy.filterOnly,
     filterOnlySqlText (whereClauseOf (buildFilters r)) (orderBy r.sort)
       (buildFilters r).paramIndex,
     (buildFilters r).values ++ [r.limit, r.offset]⟩

/-- Scanner for positional placeholders: walks the character list; a
dollar sign opens a placeholder and the following maximal digit run is
collected as one extracted token.  Used to state which placeholders a
compiled query text contains, in order of occurrence. -/
def phScanAux : List Char → Option (List Char) → List String
  | [], none => []
  | [], some acc => [String.mk acc]
  | c :: rest, none =>
    if c = Char.ofNat 36 then phScanAux rest (some []) else phScanAux rest none
  | c :: rest, some acc =>
    if c.isDigit then phScanAux rest (some (acc ++ [c]))
    else
      String.mk acc ::
        (if c = Char.ofNat 36 then phScanAux rest (some []) else phScanAux rest none)

/-- All placeholder digit-runs of a string, in order of occurrence. -/
def extract (s : String) : List String := phScanAux s.data none

/-! Basic facts about strings, digits and the placeholder scanner. -/

theorem data_append (a b : String) : (a ++ b).data = a.data ++ b.data := rfl

theorem mk_data (s : String) : String.mk s.data = s := rfl

theorem digitChar_isDigit {m : Nat} (h : m < 10) : (Nat.digitChar m).isDigit = true := by
  interval_cases m <;> decide

theorem toDigitsCore_digits (fuel : Nat) : ∀ (n : Nat) (acc : List Char),
    (∀ c ∈ acc, c.isDigit = true) →
    ∀ c ∈ Nat.toDigitsCore 10 fuel n acc, c.isDigit = true := by
  induction fuel with
  | zero =>
    intro n acc hacc c hc
    exact hacc c (by simpa [Nat.toDigitsCore] using hc)
  | succ f ih =>
    intro n acc hacc c hc
    simp only [Nat.toDigitsCore] at hc
    have hmem : ∀ x ∈ Nat.digitChar (n % 10) :: acc, x.isDigit = true := by
      intro x hx
      rcases List.mem_cons.mp hx with h1 | h2
      · subst h1; exact digitChar_isDigit (Nat.mod_lt _ (by norm_num))
      · exact hacc x h2
    split at hc
    · exact hmem c hc
    · exact ih (n / 10) _ hmem c hc

theorem toDigitsCore_eq_nil (fuel : Nat) : ∀ (n : Nat) (acc : List Char),
    Nat.toDigitsCore 10 fuel n acc = [] → acc = [] := by
  induction fuel with
  | zero => intro n acc h; simpa [Nat.toDigitsCore] using h
  | succ f ih =>
    intro n acc h
    simp only [Nat.toDigitsCore] at h
    split at h
    · exact absurd h (by simp)
    · exact absurd (ih (n / 10) _ h) (by simp)

theorem repr_digit (n : Nat) : ∀ c ∈ (Nat.repr n).data, c.isDigit = true := by
  have h : (Nat.repr n).data = Nat.toDigitsCore 10 (n + 1) n [] := rfl
  rw [h]
  exact toDigitsCore_digits (n + 1) n [] (by simp)

theorem repr_ne_nil (n : Nat) : (Nat.repr n).data ≠ [] := by
  have h : (Nat.repr n).data = Nat.toDigitsCore 10 (n + 1) n [] := rfl
  rw [h]
  simp only [Nat.toDigitsCore]
  split
  · simp
  · intro hc
    exact absurd (toDigitsCore_eq_nil _ _ _ hc) (by simp)

/-- Holds when the character list does not begin with a digit, so a
preceding placeholder digit-run cannot leak into it. -/
def headNotDigit (l : List Char) : Bool :=
  match l with
  | [] => true
  | c :: _ => !c.isDigit

/-- The scanner extracts exactly the tokens ts from the chunk a, in
any surrounding that does not continue a digit run. -/
def Emits (a : List Char) (ts : List String) : Prop :=
  ∀ b, headNotDigit b = true → phScanAux (a ++ b) none = ts ++ phScanAux b none

theorem emits_nil : Emits [] [] := fun b _ => by simp

theorem emits_nodollar {a : List Char} (h : ∀ c ∈ a, ¬c = Char.ofNat 36) :
    Emits a [] := by
  induction a with
  | nil => exact emits_nil
  | cons c rest ih =>
    intro b hb
    have hc : ¬c = Char.ofNat 36 := h c (by simp)
    simp only [List.cons_append, phScanAux, if_neg hc]
    exact ih (fun x hx => h x (by simp [hx])) b hb

theorem emits_lit (s : String) (h : ∀ c ∈ s.data, ¬c = Char.ofNat 36) :
    Emits s.data [] := emits_nodollar h

theorem emits_append {a ts a2 ts2} (h1 : Emits a ts) (h2 : Emits a2 ts2)
    (hh : headNotDigit a2 = true) : Emits (a ++ a2) (ts ++ ts2) := by
  intro b hb
  rw [List.append_assoc]
  have hhead : headNotDigit (a2 ++ b) = true := by
    cases a2 with
    | nil => simpa using hb
    | cons c r => simpa [headNotDigit] using hh
  rw [h1 (a2 ++ b) hhead, h2 b hb, List.append_assoc]

theorem phScanAux_digits {ds : List Char} (hds : ∀ c ∈ ds, c.isDigit = true) :
    ∀ (acc b : List Char), headNotDigit b = true →
    phScanAux (ds ++ b) (some acc) = String.mk (acc ++ ds) :: phScanAux b none := by
  induction ds with
  | nil =>
    intro acc b hb
    cases b with
    | nil => simp [phScanAux]
    | cons c rest =>
      have hc : c.isDigit = false := by simpa [headNotDigit] using hb
      simp [phScanAux, hc]
  | cons d ds ih =>
    intro acc b hb
    have hd : d.isDigit = true := hds d (by simp)
    simp only [List.cons_append, phScanAux, hd, if_true, List.append_eq]
    rw [ih (fun c hc => hds c (by simp [hc])) (acc ++ [d]) b hb]
    simp

theorem emits_ph (i : Nat) : Emits (ph i).data [toString i] := by
  intro b hb
  have h1 : (ph i).data = Char.ofNat 36 :: (Nat.repr i).data := rfl
  rw [h1]
  have h2 : phScanAux ((Char.ofNat 36 :: (Nat.repr i).data) ++ b) none
      = phScanAux ((Nat.repr i).data ++ b) (some []) := by
    simp [phScanAux]
  rw [h2, phScanAux_digits (repr_digit i) [] b hb]
  simp [mk_data]
  rfl

theorem emits_extract {s : String} {ts : List String} (h : Emits s.data ts) :
    extract s = ts := by
  have := h [] rfl
  simpa [extract, phScanAux] using this

/-! Emission structure of the filter fragments built by buildFilters. -/

theorem headNotDigit_append {a : List Char} (b : List Char) (h : a ≠ []) :
    headNotDigit (a ++ b) = headNotDigit a := by
  cases a with
  | nil => exact absurd rfl h
  | cons c r => rfl

theorem ph_data (i : Nat) : (ph i).data = Char.ofNat 36 :: (Nat.repr i).data := rfl

theorem ph_head (i : Nat) : headNotDigit (ph i).data = true := by
  rw [ph_data]
  show (!(Char.ofNat 36).isDigit) = true
  decide

theorem ph_ne_nil (i : Nat) : (ph i).data ≠ [] := by
  rw [ph_data]; simp

theorem range'_add (s a b : Nat) :
    List.range' s (a + b) = List.range' s a ++ List.range' (s + a) b := by
  induction a generalizing s with
  | zero => simp
  | succ n ih =>
    have h1 : n + 1 + b = (n + b) + 1 := by omega
    have h2 : List.range' s ((n + b) + 1) = s :: List.range' (s + 1) (n + b) := rfl
    have h3 : List.range' s (n + 1) = s :: List.range' (s + 1) n := rfl
    rw [h1, h2, ih (s + 1), h3]
    simp only [List.cons_append, List.cons.injEq, true_and]
    congr 2
    omega

theorem range'_map_concat (f : Nat → String) (k : Nat) :
    ((List.range' 1 k).map f) ++ [f (k + 1)] = (List.range' 1 (k + 1)).map f := by
  rw [range'_add 1 k 1]
  have h : List.range' (1 + k) 1 = [1 + k] := rfl
  simp [h, Nat.add_comm]

theorem joinSep_concat_data (sep x y : String) (ys : List String) :
    (joinSep sep ((y :: ys) ++ [x])).data
      = (joinSep sep (y :: ys)).data ++ sep.data ++ x.data := by
  induction ys generalizing y with
  | nil => simp [joinSep, data_append]
  | cons z zs ih =>
    have h : (y :: z :: zs) ++ [x] = y :: ((z :: zs) ++ [x]) := by simp
    rw [h]
    have h2 : joinSep sep (y :: ((z :: zs) ++ [x]))
        = y ++ sep ++ joinSep sep ((z :: zs) ++ [x]) := rfl
    have h3 : joinSep sep (y :: z :: zs) = y ++ sep ++ joinSep sep (z :: zs) := rfl
    rw [h2, h3, data_append, data_append, data_append, data_append, ih z]
    simp

theorem joinSep_single (sep x : String) : joinSep sep [x] = x := rfl

theorem joinSep_head {sep : String} (y : String) (ys : List String)
    (hne : y.data ≠ []) (hh : headNotDigit y.data = true) :
    headNotDigit (joinSep sep (y :: ys)).data = true := by
  cases ys with
  | nil => simpa [joinSep_single] using hh
  | cons z zs =>
    have h : joinSep sep (y :: z :: zs) = y ++ sep ++ joinSep sep (z :: zs) := rfl
    rw [h, data_append, data_append, List.append_assoc, headNotDigit_append _ hne]
    exact hh

theorem joinSep_ne_nil {sep : String} (y : String) (ys : List String)
    (hne : y.data ≠ []) : (joinSep sep (y :: ys)).data ≠ [] := by
  cases ys with
  | nil => simpa [joinSep_single] using hne
  | cons z zs =>
    have h : joinSep sep (y :: z :: zs) = y ++ sep ++ joinSep sep (z :: zs) := rfl
    rw [h, data_append, data_append, List.append_assoc]
    simp [hne]

/-- The running invariant of the filter-building pass: the parameter
cursor is one plus the number of values appended, the fragment list is
empty exactly when no value was bound, and the joined fragments emit
the placeholders one to the value count, in order. -/
def StOk (st : FilterState) : Prop :=
  st.paramIndex = st.values.length + 1 ∧
  (st.filters = [] ↔ st.values.length = 0) ∧
  (st.filters ≠ [] →
    (joinSep " AND " st.filters).data ≠ [] ∧
    headNotDigit (joinSep " AND " st.filters).data = true) ∧
  Emits (joinSep " AND " st.filters).data
    ((List.range' 1 st.values.length).map (fun i => toString i))

theorem stOk_init : StOk ⟨[], [], 1⟩ := by
  refine ⟨rfl, by simp, by simp, ?_⟩
  simpa [joinSep] using emits_nil

theorem sep_nodollar : ∀ c ∈ (" AND " : String).data, ¬c = Char.ofNat 36 := by decide

theorem sep_head : headNotDigit (" AND " : String).data = true := by decide

theorem emits_tagFrag (i : Nat) : Emits (tagFrag i).data [toString i] := by
  have h : (tagFrag i).data
      = ("\"tags\" @> ARRAY[" : String).data ++ ((ph i).data ++ ("]" : String).data) := by
    simp [tagFrag, data_append]
  rw [h]
  have e1 := emits_lit "\"tags\" @> ARRAY[" (by decide)
  have e2 := emits_lit "]" (by decide)
  have := emits_append e1 (emits_append (emits_ph i) e2 (by decide)) (ph_head i)
  simpa using this

theorem tagFrag_data (i : Nat) : (tagFrag i).data
    = ("\"tags\" @> ARRAY[" : String).data ++ ((ph i).data ++ ("]" : String).data) := by
  simp [tagFrag, data_append]

theorem tagFrag_ne_nil (i : Nat) : (tagFrag i).data ≠ [] := by
  rw [tagFrag_data]; simp

theorem tagFrag_head (i : Nat) : headNotDigit (tagFrag i).data = true := by
  rw [tagFrag_data, headNotDigit_append _ (by decide)]
  decide

theorem emits_tagJoin : ∀ (t i : Nat),
    Emits (joinSep " AND " ((List.range' i t).map tagFrag)).data
      ((List.range' i t).map (fun j => toString j)) := by
  intro t
  induction t with
  | zero => intro i; simpa [joinSep] using emits_nil
  | succ n ih =>
    intro i
    have hr : List.range' i (n + 1) = i :: List.range' (i + 1) n := rfl
    rw [hr]
    cases n with
    | zero => simpa [joinSep_single] using emits_tagFrag i
    | succ m =>
      have hr2 : List.range' (i + 1) (m + 1) = (i + 1) :: List.range' (i + 2) m := rfl
      have hj : joinSep " AND " (tagFrag i :: (List.range' (i + 1) (m + 1)).map tagFrag)
          = tagFrag i ++ " AND " ++
            joinSep " AND " ((List.range' (i + 1) (m + 1)).map tagFrag) := by
        rw [hr2]; rfl
      have hjoined := ih (i + 1)
      have hhead : headNotDigit
          (joinSep " AND " ((List.range' (i + 1) (m + 1)).map tagFrag)).data = true := by
        rw [hr2]
        exact joinSep_head _ _ (tagFrag_ne_nil (i + 1)) (tagFrag_head (i + 1))
      have hsep := emits_lit " AND " sep_nodollar
      have := emits_append (emits_append (emits_tagFrag i) hsep sep_head) hjoined hhead
      simp only [List.map_cons]
      rw [hj, data_append, data_append]
      simpa using this

theorem stOk_scalarStep {st : FilterState} (hst : StOk st) (cond : Bool)
    (name v : String)
    (hnd : ∀ c ∈ name.data, ¬c = Char.ofNat 36)
    (hne : name.data ≠ []) (hhead : headNotDigit name.data = true) :
    StOk (scalarStep cond name v st) := by
  cases cond with
  | false => simpa [scalarStep] using hst
  | true =>
    obtain ⟨hidx, hiff, hjoin, hem⟩ := hst
    have hfrag : Emits (name ++ ph st.paramIndex).data [toString st.paramIndex] := by
      rw [data_append]
      simpa using emits_append (emits_nodollar hnd) (emits_ph st.paramIndex) (ph_head _)
    have hfrag_ne : (name ++ ph st.paramIndex).data ≠ [] := by
      rw [data_append]; simp [hne]
    have hfrag_head : headNotDigit (name ++ ph st.paramIndex).data = true := by
      rw [data_append, headNotDigit_append _ hne]; exact hhead
    simp only [scalarStep, if_true]
    refine ⟨by simp [hidx], by simp, ?_, ?_⟩
    · intro _
      cases hfs : st.filters with
      | nil =>
        simp only [hfs, List.nil_append, joinSep_single]
        exact ⟨hfrag_ne, hfrag_head⟩
      | cons y ys =>
        have hj := hjoin (by simp [hfs])
        rw [hfs] at hj
        rw [joinSep_concat_data]
        refine ⟨by simp [hfrag_ne], ?_⟩
        rw [List.append_assoc, headNotDigit_append _ hj.1]
        exact hj.2
    · cases hfs : st.filters with
      | nil =>
        have hlen0 : st.values.length = 0 := hiff.mp hfs
        have hpi : st.paramIndex = 1 := by omega
        rw [hpi] at hfrag
        simp only [hfs, List.nil_append, joinSep_single, List.length_append, hlen0, hpi]
        simpa using hfrag
      | cons y ys =>
        have hem2 : Emits (joinSep " AND " (y :: ys)).data
            ((List.range' 1 st.values.length).map (fun i => toString i)) := by
          rw [← hfs]; exact hem
        rw [joinSep_concat_data]
        have hcomp := emits_append
          (emits_append hem2 (emits_lit " AND " sep_nodollar) sep_head)
          hfrag hfrag_head
        have htoks :
            (((List.range' 1 st.values.length).map (fun i => toString i)) ++ [])
              ++ [toString st.paramIndex]
            = (List.range' 1 (st.values ++ [v]).length).map (fun i => toString i) := by
          simp only [List.append_nil, hidx]
          rw [range'_map_concat (fun i => toString i) st.values.length]
          simp
        rw [← htoks]
        exact hcomp

theorem stOk_tagStep (ts : List String) : StOk (tagStep ts ⟨[], [], 1⟩) := by
  unfold tagStep
  split
  · next hlen =>
    obtain ⟨m, hm⟩ : ∃ m, ts.length = m + 1 :=
      Nat.exists_eq_succ_of_ne_zero (by omega)
    refine ⟨by simp [Nat.add_comm], ?_, ?_, ?_⟩
    · constructor
      · intro h; exact absurd h (by simp)
      · intro h; simp only [List.nil_append] at h; omega
    · intro _
      simp only [List.nil_append, joinSep_single, hm]
      have hr : List.range' 1 (m + 1) = 1 :: List.range' 2 m := rfl
      rw [hr, List.map_cons]
      exact ⟨joinSep_ne_nil _ _ (tagFrag_ne_nil 1),
        joinSep_head _ _ (tagFrag_ne_nil 1) (tagFrag_head 1)⟩
    · simp only [List.nil_append, joinSep_single, List.length_nil]
      simpa using emits_tagJoin ts.length 1
  · exact stOk_init

theorem buildFilters_ok (r : Req) : StOk (buildFilters r) := by
  unfold buildFilters
  exact stOk_scalarStep
    (stOk_scalarStep
      (stOk_scalarStep
        (stOk_scalarStep (stOk_tagStep (parsedTags r.tags)) _ _ _
          (by decide) (by decide) (by decide))
        _ _ _ (by decide) (by decide) (by decide))
      _ _ _ (by decide) (by decide) (by decide))
    _ _ _ (by decide) (by decide) (by decide)

theorem scalarStep_values (c : Bool) (n v : String) (st : FilterState) :
    (scalarStep c n v st).values = st.values ++ (if c then [v] else []) := by
  cases c <;> simp [scalarStep]

theorem tagStep_values (ts : List String) (st : FilterState) :
    (tagStep ts st).values = st.values ++ ts := by
  unfold tagStep
  split
  · rfl
  · next h =>
    have hts : ts = [] := List.length_eq_zero.mp (by omega)
    simp [hts]

theorem buildFilters_values (r : Req) :
    (buildFilters r).values =
      parsedTags r.tags
        ++ (if r.subject != "" then [r.subject] else [])
        ++ (if r.examboard != "" then [r.examboard] else [])
        ++ (if r.level != "" then [r.level] else [])
        ++ (if r.type != "" then [r.type] else []) := by
  simp [buildFilters, scalarStep_values, tagStep_values, List.append_assoc]

theorem scalarStep_filters_ne (c : Bool) (n v : String) (st : FilterState)
    (h : st.filters ≠ []) : (scalarStep c n v st).filters ≠ [] := by
  cases c <;> simp [scalarStep, h]

theorem scalarStep_filters_head (c : Bool) (n v : String) (st : FilterState)
    (h : st.filters ≠ []) : (scalarStep c n v st).filters.head? = st.filters.head? := by
  cases c with
  | false => rfl
  | true =>
    cases hfs : st.filters with
    | nil => exact absurd hfs h
    | cons y ys => simp [scalarStep, hfs]

theorem whereClause_emits {st : FilterState} (h : StOk st) :
    Emits (whereClauseOf st).data
      ((List.range' 1 st.values.length).map (fun i => toString i)) ∧
    headNotDigit (whereClauseOf st).data = true := by
  obtain ⟨hidx, hiff, hjoin, hem⟩ := h
  unfold whereClauseOf
  cases hfs : st.filters with
  | nil =>
    have hlen0 := hiff.mp hfs
    simp only [List.length_nil, gt_iff_lt, lt_self_iff_false, if_false, hlen0]
    exact ⟨by simpa using emits_nil, rfl⟩
  | cons y ys =>
    have hj := hjoin (by simp [hfs])
    rw [hfs] at hj
    have hem2 : Emits (joinSep " AND " (y :: ys)).data
        ((List.range' 1 st.values.length).map (fun i => toString i)) := by
      rw [← hfs]; exact hem
    rw [if_pos (by simp)]
    constructor
    · rw [data_append]
      simpa using emits_append (emits_lit "WHERE " (by decide)) hem2 hj.2
    · rw [data_append, headNotDigit_append _ (by decide)]
      decide

theorem whereClause_empty_iff {st : FilterState} (h : StOk st) :
    whereClauseOf st = "" ↔ st.values.length = 0 := by
  obtain ⟨hidx, hiff, hjoin, hem⟩ := h
  unfold whereClauseOf
  cases hfs : st.filters with
  | nil =>
    simp only [List.length_nil, gt_iff_lt, lt_self_iff_false, if_false]
    simpa using hiff.mp hfs
  | cons y ys =>
    have hj := hjoin (by simp [hfs])
    rw [hfs] at hj
    rw [if_pos (by simp)]
    constructor
    · intro hcon
      have := congrArg String.data hcon
      rw [data_append] at this
      simp at this
    · intro hcon
      exact absurd (hiff.mpr hcon) (by simp [hfs])

theorem splitChars_mem {sep : Char} : ∀ (l seg : List Char),
    seg ∈ splitChars sep l → ∀ c ∈ seg, c ∈ l := by
  intro l
  induction l with
  | nil =>
    intro seg hseg c hc
    simp only [splitChars, List.mem_singleton] at hseg
    subst hseg
    simp at hc
  | cons d rest ih =>
    intro seg hseg c hc
    simp only [splitChars] at hseg
    by_cases hd : d = sep
    · rw [if_pos hd] at hseg
      rcases List.mem_cons.mp hseg with h1 | h2
      · subst h1; simp at hc
      · exact List.mem_cons_of_mem d (ih seg h2 c hc)
    · rw [if_neg hd] at hseg
      cases hsc : splitChars sep rest with
      | nil =>
        rw [hsc] at hseg
        simp only [List.mem_singleton] at hseg
        subst hseg
        simp only [List.mem_singleton] at hc
        subst hc
        simp
      | cons s ss =>
        rw [hsc] at hseg
        rcases List.mem_cons.mp hseg with h1 | h2
        · subst h1
          rcases List.mem_cons.mp hc with h3 | h4
          · subst h3; simp
          · exact List.mem_cons_of_mem d (ih s (by rw [hsc]; simp) c h4)
        · exact List.mem_cons_of_mem d (ih seg (by rw [hsc]; simp [h2]) c hc)

theorem nodollar_of_all {l : List Char}
    (h : l.all (fun c => decide (¬c = Char.ofNat 36)) = true) :
    ∀ c ∈ l, ¬c = Char.ofNat 36 := by
  intro c hc
  simpa using List.all_eq_true.mp h c hc

theorem sortField_nodollar {sort : String}
    (h : ∀ c ∈ sort.data, ¬c = Char.ofNat 36) :
    ∀ c ∈ (sortFieldOf sort).data, ¬c = Char.ofNat 36 := by
  unfold sortFieldOf sortParts
  cases hsc : splitChars (Char.ofNat 58) sort.data with
  | nil => simp
  | cons s ss =>
    simp only [List.map_cons, List.headD_cons]
    intro c hc
    exact h c (splitChars_mem sort.data s (by rw [hsc]; simp) c hc)

theorem validSortDir_cases (sort : String) :
    validSortDir sort = "asc" ∨ validSortDir sort = "desc" := by
  unfold validSortDir
  split
  · next hor =>
    rcases hor with h1 | h1 <;> rw [h1] <;> simp
  · right; rfl

theorem orderBy_nodollar {sort : String}
    (h : ∀ c ∈ sort.data, ¬c = Char.ofNat 36) :
    ∀ c ∈ (orderBy sort).data, ¬c = Char.ofNat 36 := by
  unfold orderBy
  split
  · intro c hc
    rw [data_append, data_append] at hc
    rcases List.mem_append.mp hc with hc1 | hc2
    · rcases List.mem_append.mp hc1 with hc3 | hc4
      · rcases List.mem_append.mp hc3 with hc5 | hc6
        · exact nodollar_of_all (by decide) c hc5
        · exact sortField_nodollar h c hc6
      · exact nodollar_of_all (by decide) c hc4
    · rcases validSortDir_cases sort with hv | hv <;> rw [hv] at hc2
      · exact nodollar_of_all (by decide) c hc2
      · exact nodollar_of_all (by decide) c hc2
  · intro c hc
    exact nodollar_of_all (by decide) c hc

theorem orderBy_head (sort : String) : headNotDigit (orderBy sort).data = true := by
  unfold orderBy
  split
  · rw [data_append, data_append, data_append, List.append_assoc, List.append_assoc,
      headNotDigit_append _ (by decide : ("\"" : String).data ≠ [])]
    decide
  · decide

theorem headNotDigit_append2 {a : List Char} (b : List Char) (h : a ≠ [])
    (ha : headNotDigit a = true) : headNotDigit (a ++ b) = true := by
  rw [headNotDigit_append b h]; exact ha

theorem data_eq_nil {s : String} (h : s.data = []) : s = "" := by
  cases s with
  | mk l =>
    have hl : l = [] := h
    rw [hl]

theorem semanticSqlText_extract (idx : Nat) (wc ob : String) (tw : List String)
    (hwc : Emits wc.data tw) (hwch : headNotDigit wc.data = true)
    (hob : Emits ob.data []) (hobh : headNotDigit ob.data = true) :
    extract (semanticSqlText idx wc ob)
      = toString idx :: (tw ++ [toString (idx + 1), toString (idx + 2)]) := by
  apply emits_extract
  unfold semanticSqlText
  simp only [data_append]
  have E :=
    emits_append
      (emits_append
        (emits_append
          (emits_append
            (emits_append
              (emits_append
                (emits_append
                  (emits_append
                    (emits_append
                      (emits_lit "\n        SELECT id, title, description, \"averagerating\", subject, \"examboard\", level, type,\n               1 - (embedding <-> " (by decide))
                      (emits_ph idx) (ph_head idx))
                    (emits_lit ") AS semantic_score\n        FROM resources\n        " (by decide)) (by decide))
                  hwc hwch)
                (emits_lit "\n        ORDER BY semantic_score DESC, " (by decide)) (by decide))
              hob hobh)
            (emits_lit "\n        LIMIT " (by decide)) (by decide))
          (emits_ph (idx + 1)) (ph_head (idx + 1)))
        (emits_lit " OFFSET " (by decide)) (by decide))
      (emits_ph (idx + 2)) (ph_head (idx + 2))
  have E2 := emits_append E (emits_lit ";\n      " (by decide)) (by decide)
  simpa using E2

theorem filterOnlySqlText_extract (idx : Nat) (wc ob : String) (tw : List String)
    (hwc : Emits wc.data tw) (hwch : headNotDigit wc.data = true)
    (hob : Emits ob.data []) (hobh : headNotDigit ob.data = true) :
    extract (filterOnlySqlText wc ob idx)
      = tw ++ [toString idx, toString (idx + 1)] := by
  apply emits_extract
  unfold filterOnlySqlText
  simp only [data_append]
  have E :=
    emits_append
      (emits_append
        (emits_append
          (emits_append
            (emits_append
              (emits_append
                (emits_append
                  (emits_lit "\n        SELECT id, title, description, \"averagerating\", subject, \"examboard\", level, type\n        FROM \"resources\"\n        " (by decide))
                  hwc hwch)
                (emits_lit "\n        ORDER BY " (by decide)) (by decide))
              hob hobh)
            (emits_lit "\n        LIMIT " (by decide)) (by decide))
          (emits_ph idx) (ph_head idx))
        (emits_lit " OFFSET " (by decide)) (by decide))
      (emits_ph (idx + 1)) (ph_head (idx + 1))
  have E2 := emits_append E (emits_lit ";\n      " (by decide)) (by decide)
  simpa using E2

theorem base_emits (idx : Nat) :
    Emits (("\"search_tsv\" @@ plainto_tsquery(\x27english\x27, " ++ ph idx ++ ")") : String).data
      [toString idx] := by
  rw [data_append, data_append]
  simpa using
    emits_append
      (emits_append
        (emits_lit "\"search_tsv\" @@ plainto_tsquery(\x27english\x27, " (by decide))
        (emits_ph idx) (ph_head idx))
      (emits_lit ")" (by decide)) (by decide)

theorem base_head (idx : Nat) :
    headNotDigit
      (("\"search_tsv\" @@ plainto_tsquery(\x27english\x27, " ++ ph idx ++ ")") : String).data
      = true := by
  rw [data_append, data_append]
  exact headNotDigit_append2 _
    (by intro h; exact absurd (List.append_eq_nil.mp h).1 (by decide))
    (headNotDigit_append2 _ (by decide) (by decide))

theorem searchCondition_eq_true (fuzzy q : String) (idx : Nat) (hf : fuzzy = "true") :
    searchConditionOf fuzzy q idx
      = ("(" ++ ("\"search_tsv\" @@ plainto_tsquery(\x27english\x27, " ++ ph idx ++ ")")
           ++ " OR \"title\" % " ++ ph (idx + 1) ++ ")",
         [q, q], idx + 2) := by
  unfold searchConditionOf
  rw [if_pos hf]

theorem searchCondition_eq_false (fuzzy q : String) (idx : Nat) (hf : ¬fuzzy = "true") :
    searchConditionOf fuzzy q idx
      = ("\"search_tsv\" @@ plainto_tsquery(\x27english\x27, " ++ ph idx ++ ")",
         [q], idx + 1) := by
  unfold searchConditionOf
  rw [if_neg hf]

theorem searchCondition_emits_true (idx : Nat) :
    Emits
      (("(" ++ ("\"search_tsv\" @@ plainto_tsquery(\x27english\x27, " ++ ph idx ++ ")")
          ++ " OR \"title\" % " ++ ph (idx + 1) ++ ")") : String).data
      [toString idx, toString (idx + 1)] := by
  have E :=
    emits_append
      (emits_append
        (emits_append
          (emits_append (emits_lit "(" (by decide))
            (base_emits idx) (base_head idx))
          (emits_lit " OR \"title\" % " (by decide)) (by decide))
        (emits_ph (idx + 1)) (ph_head (idx + 1)))
      (emits_lit ")" (by decide)) (by decide)
  simpa [data_append] using E

theorem searchCondition_head_true (idx : Nat) :
    headNotDigit
      (("(" ++ ("\"search_tsv\" @@ plainto_tsquery(\x27english\x27, " ++ ph idx ++ ")")
          ++ " OR \"title\" % " ++ ph (idx + 1) ++ ")") : String).data = true := by
  simp only [data_append]
  exact headNotDigit_append2 _ (by simp) (headNotDigit_append2 _ (by simp)
    (headNotDigit_append2 _ (by simp) (headNotDigit_append2 _ (by decide) (by decide))))

theorem fullTextSqlText_extract (wc sc ob : String) (tw tsc : List String) (idx2 : Nat)
    (hwc : Emits wc.data tw) (hwch : headNotDigit wc.data = true)
    (hwemp : wc = "" → tw = [])
    (hsc : Emits sc.data tsc) (hsch : headNotDigit sc.data = true)
    (hob : Emits ob.data []) (hobh : headNotDigit ob.data = true) :
    extract (fullTextSqlText wc sc ob idx2)
      = toString 1 :: toString 1 :: (tw ++ tsc ++ [toString idx2, toString (idx2 + 1)]) := by
  have hWP : Emits (if wc ≠ "" then wc ++ " AND " else "WHERE ").data tw ∧
      headNotDigit (if wc ≠ "" then wc ++ " AND " else "WHERE ").data = true := by
    by_cases hw : wc = ""
    · rw [if_neg (by simp [hw])]
      refine ⟨?_, by decide⟩
      rw [hwemp hw]
      exact emits_lit "WHERE " (by decide)
    · rw [if_pos hw]
      constructor
      · rw [data_append]
        simpa using emits_append hwc (emits_lit " AND " sep_nodollar) sep_head
      · have hwne : wc.data ≠ [] := fun hcon => hw (data_eq_nil hcon)
        rw [data_append, headNotDigit_append _ hwne]
        exact hwch
  apply emits_extract
  unfold fullTextSqlText
  simp only [data_append]
  have E :=
    emits_append
      (emits_append
        (emits_append
          (emits_append
            (emits_append
              (emits_append
                (emits_append
                  (emits_append
                    (emits_append
                      (emits_append
                        (emits_append
                          (emits_lit "\n        SELECT id, title, description, \"averagerating\", subject, \"examboard\", level, type,\n               ts_rank(\"search_tsv\", plainto_tsquery(\x27english\x27, " (by decide))
                          (emits_ph 1) (ph_head 1))
                        (emits_lit ")) AS rank,\n               similarity(\"title\", " (by decide)) (by decide))
                      (emits_ph 1) (ph_head 1))
                    (emits_lit ") AS fuzzy_score\n        FROM \"resources\"\n        " (by decide)) (by decide))
                  hWP.1 hWP.2)
                (emits_lit " " (by decide)) (by decide))
              hsc hsch)
            (emits_lit "\n        ORDER BY rank DESC, fuzzy_score DESC, " (by decide)) (by decide))
          hob hobh)
        (emits_lit "\n        LIMIT " (by decide)) (by decide))
      (emits_ph idx2) (ph_head idx2)
  have E2 := emits_append
    (emits_append (emits_append E (emits_lit " OFFSET " (by decide)) (by decide))
      (emits_ph (idx2 + 1)) (ph_head (idx2 + 1)))
    (emits_lit ";\n      " (by decide)) (by decide)
  simpa using E2

theorem compile_semantic {r : Req} (e : List String)
    (hs : r.semantic = "true") (hq : r.query ≠ "") :
    compile r e = ⟨Strategy.semantic,
      semanticSqlText (buildFilters r).paramIndex (whereClauseOf (buildFilters r))
        (orderBy r.sort),
      (buildFilters r).values ++ ["[" ++ joinSep "," e ++ "]", r.limit, r.offset]⟩ := by
  unfold compile
  rw [if_pos ⟨hs, hq⟩]

theorem compile_fulltext {r : Req} (e : List String)
    (hs : ¬r.semantic = "true") (hq : r.query ≠ "") :
    compile r e = ⟨Strategy.fulltext,
      fullTextSqlText (whereClauseOf (buildFilters r))
        (searchConditionOf r.fuzzy r.query (buildFilters r).paramIndex).1
        (orderBy r.sort)
        (searchConditionOf r.fuzzy r.query (buildFilters r).paramIndex).2.2,
      (buildFilters r).values
        ++ (searchConditionOf r.fuzzy r.query (buildFilters r).paramIndex).2.1
        ++ [r.limit, r.offset]⟩ := by
  unfold compile
  rw [if_neg (by tauto), if_pos hq]

theorem compile_filterOnly {r : Req} (e : List String) (hq : r.query = "") :
    compile r e = ⟨Strategy.filterOnly,
      filterOnlySqlText (whereClauseOf (buildFilters r)) (orderBy r.sort)
        (buildFilters r).paramIndex,
      (buildFilters r).values ++ [r.limit, r.offset]⟩ := by
  unfold compile
  rw [if_neg (by simp [hq]), if_neg (by simp [hq])]

theorem range'_map_concat2 (f : Nat → String) (k : Nat) :
    ((List.range' 1 k).map f) ++ [f (k + 1), f (k + 2)]
      = (List.range' 1 (k + 2)).map f := by
  rw [← range'_map_concat f (k + 1), ← range'_map_concat f k]
  simp

theorem compile_semantic_sql {r : Req} (e : List String)
    (hs : r.semantic = "true") (hq : r.query ≠ "") :
    (compile r e).sql = semanticSqlText (buildFilters r).paramIndex
      (whereClauseOf (buildFilters r)) (orderBy r.sort) := by
  rw [compile_semantic e hs hq]

theorem compile_semantic_values {r : Req} (e : List String)
    (hs : r.semantic = "true") (hq : r.query ≠ "") :
    (compile r e).values
      = (buildFilters r).values ++ ["[" ++ joinSep "," e ++ "]", r.limit, r.offset] := by
  rw [compile_semantic e hs hq]

theorem compile_fulltext_sql {r : Req} (e : List String)
    (hs : ¬r.semantic = "true") (hq : r.query ≠ "") :
    (compile r e).sql = fullTextSqlText (whereClauseOf (buildFilters r))
      (searchConditionOf r.fuzzy r.query (buildFilters r).paramIndex).1
      (orderBy r.sort)
      (searchConditionOf r.fuzzy r.query (buildFilters r).paramIndex).2.2 := by
  rw [compile_fulltext e hs hq]

theorem compile_fulltext_values {r : Req} (e : List String)
    (hs : ¬r.semantic = "true") (hq : r.query ≠ "") :
    (compile r e).values
      = (buildFilters r).values
        ++ (searchConditionOf r.fuzzy r.query (buildFilters r).paramIndex).2.1
        ++ [r.limit, r.offset] := by
  rw [compile_fulltext e hs hq]

theorem compile_filterOnly_sql {r : Req} (e : List String) (hq : r.query = "") :
    (compile r e).sql = filterOnlySqlText (whereClauseOf (buildFilters r))
      (orderBy r.sort) (buildFilters r).paramIndex := by
  rw [compile_filterOnly e hq]

theorem compile_filterOnly_values {r : Req} (e : List String) (hq : r.query = "") :
    (compile r e).values = (buildFilters r).values ++ [r.limit, r.offset] := by
  rw [compile_filterOnly e hq]

theorem extract_compile_semantic {r : Req} (e : List String)
    (hs : r.semantic = "true") (hq : r.query ≠ "")
    (hsort : ∀ c ∈ r.sort.data, ¬c = Char.ofNat 36) :
    extract (compile r e).sql
      = toString ((buildFilters r).values.length + 1)
        :: (((List.range' 1 (buildFilters r).values.length).map (fun i => toString i))
            ++ [toString ((buildFilters r).values.length + 2),
                toString ((buildFilters r).values.length + 3)]) := by
  have hok := buildFilters_ok r
  have hwc := whereClause_emits hok
  rw [compile_semantic_sql e hs hq, hok.1]
  rw [semanticSqlText_extract _ _ _ _ hwc.1 hwc.2
    (emits_nodollar (orderBy_nodollar hsort)) (orderBy_head r.sort)]

theorem extract_compile_filterOnly {r : Req} (e : List String) (hq : r.query = "")
    (hsort : ∀ c ∈ r.sort.data, ¬c = Char.ofNat 36) :
    extract (compile r e).sql
      = (List.range' 1 ((buildFilters r).values.length + 2)).map (fun i => toString i) := by
  have hok := buildFilters_ok r
  have hwc := whereClause_emits hok
  rw [compile_filterOnly_sql e hq, hok.1]
  rw [filterOnlySqlText_extract _ _ _ _ hwc.1 hwc.2
    (emits_nodollar (orderBy_nodollar hsort)) (orderBy_head r.sort)]
  exact range'_map_concat2 _ _

theorem extract_compile_fulltext {r : Req} (e : List String)
    (hs : ¬r.semantic = "true") (hq : r.query ≠ "")
    (hsort : ∀ c ∈ r.sort.data, ¬c = Char.ofNat 36) :
    extract (compile r e).sql
      = toString 1 :: toString 1 ::
        ((List.range' 1 (compile r e).values.length).map (fun i => toString i)) := by
  have hok := buildFilters_ok r
  have hwc := whereClause_emits hok
  have hwemp : whereClauseOf (buildFilters r) = "" →
      ((List.range' 1 (buildFilters r).values.length).map (fun i => toString i)) = [] := by
    intro h
    rw [(whereClause_empty_iff hok).mp h]
    rfl
  rw [compile_fulltext_sql e hs hq, compile_fulltext_values e hs hq]
  by_cases hf : r.fuzzy = "true"
  · rw [searchCondition_eq_true _ _ _ hf]
    dsimp only
    rw [hok.1]
    rw [fullTextSqlText_extract _ _ _ _ _ _ hwc.1 hwc.2 hwemp
      (searchCondition_emits_true _) (searchCondition_head_true _)
      (emits_nodollar (orderBy_nodollar hsort)) (orderBy_head r.sort)]
    simp only [List.length_append, List.length_cons, List.length_nil]
    rw [← range'_map_concat2 (fun i => toString i)
        ((buildFilters r).values.length + 2),
      ← range'_map_concat2 (fun i => toString i) (buildFilters r).values.length]
  · rw [searchCondition_eq_false _ _ _ hf]
    dsimp only
    rw [hok.1]
    rw [fullTextSqlText_extract _ _ _ _ _ _ hwc.1 hwc.2 hwemp
      (base_emits _) (base_head _)
      (emits_nodollar (orderBy_nodollar hsort)) (orderBy_head r.sort)]
    simp only [List.length_append, List.length_cons, List.length_nil]
    rw [← range'_map_concat2 (fun i => toString i)
        ((buildFilters r).values.length + 1),
      ← range'_map_concat (fun i => toString i) (buildFilters r).values.length]

/-- Substring-at-the-front test. -/
def subAt : List Char → List Char → Bool
  | _, [] => true
  | [], _ :: _ => false
  | c :: hs, d :: ns => c == d && subAt hs ns

/-- Substring containment over character lists. -/
def containsSub : List Char → List Char → Bool
  | [], needle => needle.isEmpty
  | c :: rest, needle => subAt (c :: rest) needle || containsSub rest needle

theorem subAt_nil : ∀ h : List Char, subAt h [] = true := by
  intro h
  cases h with
  | nil => rfl
  | cons c hs => rfl

theorem subAt_append_self : ∀ (n t : List Char), subAt (n ++ t) n = true := by
  intro n
  induction n with
  | nil => intro t; rw [List.nil_append]; exact subAt_nil t
  | cons c ns ih => intro t; simp [subAt, ih]

theorem containsSub_front : ∀ (n t : List Char), containsSub (n ++ t) n = true := by
  intro n t
  cases hn : n ++ t with
  | nil =>
    have : n = [] := (List.append_eq_nil.mp hn).1
    simp [this, containsSub, List.isEmpty]
  | cons c rest =>
    show (subAt (c :: rest) n || containsSub rest n) = true
    rw [← hn, subAt_append_self]
    rfl

theorem containsSub_append_left : ∀ (a rest n : List Char),
    containsSub rest n = true → containsSub (a ++ rest) n = true := by
  intro a
  induction a with
  | nil => intro rest n h; simpa using h
  | cons c as ih =>
    intro rest n h
    show (subAt (c :: (as ++ rest)) n || containsSub (as ++ rest) n) = true
    rw [ih rest n h]
    simp

theorem contains_glue (A B phd C D REST n : List Char)
    (hn : n = B ++ (phd ++ C)) :
    containsSub (A ++ (B ++ (phd ++ (C ++ (D ++ REST))))) n = true := by
  subst hn
  apply containsSub_append_left
  have h : B ++ (phd ++ (C ++ (D ++ REST))) = (B ++ (phd ++ C)) ++ (D ++ REST) := by
    simp [List.append_assoc]
  rw [h]
  exact containsSub_front _ _

theorem fullTextSqlText_contains_sc (wc sc ob : String) (idx2 : Nat) :
    containsSub (fullTextSqlText wc sc ob idx2).data sc.data = true := by
  unfold fullTextSqlText
  simp only [data_append, List.append_assoc]
  apply containsSub_append_left
  apply containsSub_append_left
  apply containsSub_append_left
  apply containsSub_append_left
  apply containsSub_append_left
  apply containsSub_append_left
  apply containsSub_append_left
  exact containsSub_front _ _

theorem fullTextSqlText_contains_fuzzyproj (wc sc ob : String) (idx2 : Nat) :
    containsSub (fullTextSqlText wc sc ob idx2).data
      ("similarity(\"title\", $1) AS fuzzy_score" : String).data = true := by
  unfold fullTextSqlText
  rw [show (")) AS rank,\n               similarity(\"title\", " : String)
      = (")) AS rank,\n               " : String)
        ++ ("similarity(\"title\", " : String) from by decide]
  rw [show (") AS fuzzy_score\n        FROM \"resources\"\n        " : String)
      = (") AS fuzzy_score" : String)
        ++ ("\n        FROM \"resources\"\n        " : String) from by decide]
  simp only [data_append, List.append_assoc]
  apply containsSub_append_left
  apply containsSub_append_left
  exact contains_glue _ _ _ _ _ _ _ (by decide)

theorem fullTextSqlText_contains_orderchain (wc sc ob : String) (idx2 : Nat) :
    containsSub (fullTextSqlText wc sc ob idx2).data
      (("ORDER BY rank DESC, fuzzy_score DESC, " ++ ob) : String).data = true := by
  unfold fullTextSqlText
  rw [show ("\n        ORDER BY rank DESC, fuzzy_score DESC, " : String)
      = ("\n        " : String)
        ++ ("ORDER BY rank DESC, fuzzy_score DESC, " : String) from by decide]
  simp only [data_append, List.append_assoc]
  apply containsSub_append_left
  apply containsSub_append_left
  apply containsSub_append_left
  apply containsSub_append_left
  apply containsSub_append_left
  apply containsSub_append_left
  apply containsSub_append_left
  apply containsSub_append_left
  apply containsSub_append_left
  rw [← List.append_assoc]
  exact containsSub_front _ _

/-! Sort parsing: relation between the split-on-every-colon behavior
of the code and a split-at-the-first-colon reading. -/

theorem splitChars_ne_nil (sep : Char) : ∀ l, splitChars sep l ≠ [] := by
  intro l
  cases l with
  | nil => simp [splitChars]
  | cons c rest =>
    by_cases hc : c = sep
    · simp [splitChars, hc]
    · simp only [splitChars, if_neg hc]
      cases hsc : splitChars sep rest with
      | nil => simp
      | cons s ss => simp

theorem splitChars_no_sep (sep : Char) : ∀ l, (∀ c ∈ l, ¬c = sep) →
    splitChars sep l = [l] := by
  intro l
  induction l with
  | nil => intro h; rfl
  | cons c rest ih =>
    intro h
    have hc : ¬c = sep := h c (by simp)
    simp only [splitChars, if_neg hc]
    rw [ih (fun x hx => h x (by simp [hx]))]

theorem splitChars_first (sep : Char) : ∀ (a rest : List Char),
    (∀ c ∈ a, ¬c = sep) →
    splitChars sep (a ++ sep :: rest) = a :: splitChars sep rest := by
  intro a
  induction a with
  | nil => intro rest h; simp [splitChars]
  | cons c as ih =>
    intro rest h
    have hc : ¬c = sep := h c (by simp)
    simp only [List.cons_append, splitChars, if_neg hc, List.append_eq]
    rw [ih rest (fun x hx => h x (by simp [hx]))]

theorem dropWhile_head_false (p : Char → Bool) : ∀ (l : List Char) (c : Char)
    (rest : List Char), l.dropWhile p = c :: rest → p c = false := by
  intro l
  induction l with
  | nil => intro c rest h; simp [List.dropWhile] at h
  | cons d ds ih =>
    intro c rest h
    rw [List.dropWhile_cons] at h
    by_cases hd : p d = true
    · rw [if_pos hd] at h
      exact ih c rest h
    · rw [if_neg hd] at h
      obtain ⟨h1, h2⟩ := List.cons.injEq d ds c rest ▸ h
      rw [← h1]
      simpa using hd

/-- Modelled from the claim: the raw sort value split at the FIRST
colon only, yielding the field before it and the whole remainder after
it as the direction (absent when the value has no colon). -/
def splitOnFirstColon (s : String) : String × Option String :=
  (String.mk (s.data.takeWhile (fun c => !(c == Char.ofNat 58))),
   match s.data.dropWhile (fun c => !(c == Char.ofNat 58)) with
   | [] => none
   | _ :: rest => some (String.mk rest))

/-- Modelled from the claim: the ORDER BY fragment computed from the
split-at-the-first-colon reading, with the same direction validation
and empty-field fallback as the code. -/
def orderBySpec (s : String) : String :=
  if (splitOnFirstColon s).1 ≠ "" then
    "\"" ++ (splitOnFirstColon s).1 ++ "\" " ++
      (if (splitOnFirstColon s).2 = some "asc" ∨ (splitOnFirstColon s).2 = some "desc"
       then ((splitOnFirstColon s).2).getD "desc" else "desc")
  else "\"averagerating\" DESC"

theorem orderBy_agree_of_count_le_one (s : String)
    (h : s.data.count (Char.ofNat 58) ≤ 1) : orderBy s = orderBySpec s := by
  cases hdrop : s.data.dropWhile (fun c => !(c == Char.ofNat 58)) with
  | nil =>
    have hall := List.dropWhile_eq_nil_iff.mp hdrop
    have hnosep : ∀ x ∈ s.data, ¬x = Char.ofNat 58 := by
      intro x hx
      simpa using hall x hx
    have hsp : splitChars (Char.ofNat 58) s.data = [s.data] :=
      splitChars_no_sep _ _ hnosep
    have htake : s.data.takeWhile (fun c => !(c == Char.ofNat 58)) = s.data := by
      conv_rhs => rw [← List.takeWhile_append_dropWhile
        (fun c => !(c == Char.ofNat 58)) s.data]
      rw [hdrop, List.append_nil]
    unfold orderBy orderBySpec validSortDir sortFieldOf sortDirOf sortParts
      splitOnFirstColon
    rw [hsp, hdrop, htake]
    simp [mk_data]
  | cons c rest =>
    have hc : (fun c => !(c == Char.ofNat 58)) c = false :=
      dropWhile_head_false _ s.data c rest hdrop
    have hceq : c = Char.ofNat 58 := by simpa using hc
    have hdec : s.data
        = s.data.takeWhile (fun c => !(c == Char.ofNat 58)) ++ Char.ofNat 58 :: rest := by
      conv_lhs => rw [← List.takeWhile_append_dropWhile
        (fun c => !(c == Char.ofNat 58)) s.data]
      rw [hdrop, hceq]
    have hta : ∀ x ∈ s.data.takeWhile (fun c => !(c == Char.ofNat 58)),
        ¬x = Char.ofNat 58 := by
      intro x hx
      have := List.mem_takeWhile_imp hx
      simpa using this
    have hrest : ∀ x ∈ rest, ¬x = Char.ofNat 58 := by
      intro x hx hxe
      have hmem : Char.ofNat 58 ∈ rest := hxe ▸ hx
      have hpos : 0 < rest.count (Char.ofNat 58) := List.count_pos_iff.mpr hmem
      have hcount : s.data.count (Char.ofNat 58)
          = (s.data.takeWhile (fun c => !(c == Char.ofNat 58))).count (Char.ofNat 58)
            + (1 + rest.count (Char.ofNat 58)) := by
        conv_lhs => rw [hdec]
        rw [List.count_append]
        simp [List.count_cons]
        omega
      omega
    have hsp : splitChars (Char.ofNat 58) s.data
        = [s.data.takeWhile (fun c => !(c == Char.ofNat 58)), rest] := by
      conv_lhs => rw [hdec]
      rw [splitChars_first _ _ _ hta, splitChars_no_sep _ _ hrest]
    unfold orderBy orderBySpec validSortDir sortFieldOf sortDirOf sortParts
      splitOnFirstColon
    rw [hsp, hdrop]
    simp

theorem fullTextSqlText_contains_rankproj (wc sc ob : String) (idx2 : Nat) :
    containsSub (fullTextSqlText wc sc ob idx2).data
      ("ts_rank(\"search_tsv\", plainto_tsquery(\x27english\x27, $1)) AS rank" : String).data
      = true := by
  unfold fullTextSqlText
  rw [show ("\n        SELECT id, title, description, \"averagerating\", subject, \"examboard\", level, type,\n               ts_rank(\"search_tsv\", plainto_tsquery(\x27english\x27, " : String)
      = ("\n        SELECT id, title, description, \"averagerating\", subject, \"examboard\", level, type,\n               " : String)
        ++ ("ts_rank(\"search_tsv\", plainto_tsquery(\x27english\x27, " : String) from by decide]
  rw [show (")) AS rank,\n               similarity(\"title\", " : String)
      = (")) AS rank" : String)
        ++ (",\n               similarity(\"title\", " : String) from by decide]
  simp only [data_append, List.append_assoc]
  exact contains_glue _ _ _ _ _ _ _ (by decide)

theorem splitChars_headD_eq (sep : Char) : ∀ l : List Char,
    (splitChars sep l).headD [] = l.takeWhile (fun c => !(c == sep)) := by
  intro l
  induction l with
  | nil => rfl
  | cons c rest ih =>
    rw [List.takeWhile_cons]
    by_cases hc : c = sep
    · subst hc
      simp [splitChars]
    · simp only [splitChars, if_neg hc]
      cases hsc : splitChars sep rest with
      | nil => exact absurd hsc (splitChars_ne_nil sep rest)
      | cons s ss =>
        rw [hsc] at ih
        simp only [List.headD_cons] at ih
        simp [hc, ih]

theorem scalarStep_filters (c : Bool) (n v : String) (st : FilterState) :
    (scalarStep c n v st).filters
      = st.filters ++ (if c then [n ++ ph st.paramIndex] else []) := by
  cases c <;> simp [scalarStep]

theorem tagStep_filters (ts : List String) (st : FilterState) :
    (tagStep ts st).filters
      = st.filters
        ++ (if ts.length > 0 then
              [joinSep " AND " ((List.range' st.paramIndex ts.length).map tagFrag)]
            else []) := by
  unfold tagStep
  split
  · next h => simp [h]
  · next h => simp [h]

theorem buildFilters_filters_head (r : Req) (h : parsedTags r.tags ≠ []) :
    (buildFilters r).filters.head?
      = some (joinSep " AND "
          ((List.range' 1 (parsedTags r.tags).length).map tagFrag)) := by
  have hlen : (parsedTags r.tags).length > 0 := List.length_pos.mpr h
  have htag : (tagStep (parsedTags r.tags) (⟨[], [], 1⟩ : FilterState)).filters
      = [joinSep " AND " ((List.range' 1 (parsedTags r.tags).length).map tagFrag)] := by
    unfold tagStep
    rw [if_pos hlen]
    simp
  have htagne : (tagStep (parsedTags r.tags) (⟨[], [], 1⟩ : FilterState)).filters ≠ [] := by
    rw [htag]; simp
  unfold buildFilters
  rw [scalarStep_filters_head _ _ _ _
      (scalarStep_filters_ne _ _ _ _ (scalarStep_filters_ne _ _ _ _
        (scalarStep_filters_ne _ _ _ _ htagne))),
    scalarStep_filters_head _ _ _ _
      (scalarStep_filters_ne _ _ _ _ (scalarStep_filters_ne _ _ _ _ htagne)),
    scalarStep_filters_head _ _ _ _ (scalarStep_filters_ne _ _ _ _ htagne),
    scalarStep_filters_head _ _ _ _ htagne,
    htag]
  rfl

/-! The claim theorems. -/

/-- C2: for every combination of filters (0, 1 or N tags, any subset
of the four scalar filters) the parameter cursor after predicate
building equals one plus the number of bound values appended; the
number of bound values is the tag count plus the count of present
scalars; and the fragment list holds one entry per present scalar plus
a single combined entry for all tags, so every fragment has its bound
values (one slot per tag inside the combined tag fragment). -/
theorem C2_cursor_invariant (r : Req) :
    (buildFilters r).paramIndex = 1 + (buildFilters r).values.length ∧
    (buildFilters r).values.length
      = (parsedTags r.tags).length
        + ((if r.subject != "" then 1 else 0) + (if r.examboard != "" then 1 else 0)
            + (if r.level != "" then 1 else 0) + (if r.type != "" then 1 else 0)) ∧
    (buildFilters r).filters.length
      = (if (parsedTags r.tags).length > 0 then 1 else 0)
        + ((if r.subject != "" then 1 else 0) + (if r.examboard != "" then 1 else 0)
            + (if r.level != "" then 1 else 0) + (if r.type != "" then 1 else 0)) := by
  refine ⟨by have h := (buildFilters_ok r).1; omega, ?_, ?_⟩
  · rw [buildFilters_values]
    simp only [List.length_append, apply_ite List.length, List.length_cons,
      List.length_nil]
    split_ifs <;> omega
  · unfold buildFilters
    rw [scalarStep_filters, scalarStep_filters, scalarStep_filters, scalarStep_filters,
      tagStep_filters]
    simp only [List.length_append, apply_ite List.length, List.length_cons,
      List.length_nil]
    split_ifs <;> omega

/-- C3: exactly one of the three strategies is selected, determined
only by the semantic flag and whether the query is non-empty; semantic
when the flag is the string true and the query is non-empty, full-text
when it is not and the query is non-empty, filter-only whenever the
query is empty; the fuzzy flag never affects the selection. -/
theorem C3_strategy_selection (r : Req) (e : List String) :
    ((compile r e).strategy = Strategy.semantic
      ↔ (r.semantic = "true" ∧ r.query ≠ "")) ∧
    ((compile r e).strategy = Strategy.fulltext
      ↔ (¬r.semantic = "true" ∧ r.query ≠ "")) ∧
    ((compile r e).strategy = Strategy.filterOnly ↔ r.query = "") ∧
    (∀ f : String, (compile { r with fuzzy := f } e).strategy
      = (compile r e).strategy) := by
  by_cases hs : r.semantic = "true" <;> by_cases hq : r.query = "" <;>
    unfold compile <;> simp [hs, hq]

/-- Modelled from the spec: the known set of sortable attributes that
a hardened implementation must allow-list sortField against; the
repository code contains no such check. -/
def sortableAttributes : List String :=
  ["subject", "examboard", "level", "type", "averagerating", "title"]

/-- C4: the code contradicts the claim.  Sorting on evil_column, a
field outside the allow-list, the handler rejects nothing: the plan is
compiled (filter-only strategy here) and the raw field is interpolated
into the ORDER BY text, exactly the behavior the claim forbids. -/
theorem C4_no_allowlist_bug :
    ¬"evil_column" ∈ sortableAttributes ∧
    (compile ⟨"", "", "", "", "", "", "20", "0", "evil_column:asc",
        "true", "false"⟩ []).strategy = Strategy.filterOnly ∧
    containsSub
      (compile ⟨"", "", "", "", "", "", "20", "0", "evil_column:asc",
          "true", "false"⟩ []).sql.data
      ("\"evil_column\" asc" : String).data = true := by
  refine ⟨by decide, by decide, by decide⟩

/-- C5: with a non-empty query, semantic disabled and fuzzy enabled,
the parameter list binds the query text twice, in the two consecutive
slots directly after the filter values, and the compiled text contains
the full-text and trigram conditions OR-ed together, each referencing
its own slot. -/
theorem C5_fuzzy_two_slots (r : Req) (e : List String)
    (hq : r.query ≠ "") (hs : ¬r.semantic = "true") (hf : r.fuzzy = "true") :
    (compile r e).values
      = (buildFilters r).values ++ [r.query, r.query, r.limit, r.offset] ∧
    (buildFilters r).values.length + 1 ≠ (buildFilters r).values.length + 2 ∧
    containsSub (compile r e).sql.data
      (("(" ++ ("\"search_tsv\" @@ plainto_tsquery(\x27english\x27, "
          ++ ph ((buildFilters r).values.length + 1) ++ ")")
        ++ " OR \"title\" % " ++ ph ((buildFilters r).values.length + 2) ++ ")")
        : String).data = true := by
  have hok := buildFilters_ok r
  refine ⟨?_, by omega, ?_⟩
  · rw [compile_fulltext_values e hs hq, searchCondition_eq_true _ _ _ hf]
    simp
  · rw [compile_fulltext_sql e hs hq, searchCondition_eq_true _ _ _ hf]
    dsimp only
    rw [hok.1]
    rw [show (buildFilters r).values.length + 1 + 1
        = (buildFilters r).values.length + 2 from rfl]
    exact fullTextSqlText_contains_sc _ _ _ _

theorem C5_fuzzy_two_slots_witness :
    (compile ⟨"algebra", "gcse", "", "", "", "", "20", "0",
        "averagerating:desc", "true", "false"⟩ []).values
      = (buildFilters ⟨"algebra", "gcse", "", "", "", "", "20", "0",
          "averagerating:desc", "true", "false"⟩).values
        ++ ["algebra", "algebra", "20", "0"] :=
  (C5_fuzzy_two_slots _ [] (by decide) (by decide) (by decide)).1

/-- C6 as amended: with fuzzy disabled the fuzzy-similarity score is
still computed and included as the second tie-break field, but its
value is the same trigram-similarity expression over the first
placeholder as in the fuzzy-enabled case, not the constant zero: the
projected fragment is byte-identical in both compiles, and the
ordering chain is rank descending, fuzzy score descending, then the
caller sort. -/
theorem C6_fuzzy_score_always_projected (r : Req) (e : List String)
    (hq : r.query ≠ "") (hs : ¬r.semantic = "true") (_hnf : ¬r.fuzzy = "true") :
    containsSub (compile r e).sql.data
      ("similarity(\"title\", $1) AS fuzzy_score" : String).data = true ∧
    containsSub (compile r e).sql.data
      (("ORDER BY rank DESC, fuzzy_score DESC, " ++ orderBy r.sort) : String).data
      = true ∧
    containsSub (compile { r with fuzzy := "true" } e).sql.data
      ("similarity(\"title\", $1) AS fuzzy_score" : String).data = true := by
  refine ⟨?_, ?_, ?_⟩
  · rw [compile_fulltext_sql e hs hq]
    exact fullTextSqlText_contains_fuzzyproj _ _ _ _
  · rw [compile_fulltext_sql e hs hq]
    exact fullTextSqlText_contains_orderchain _ _ _ _
  · rw [@compile_fulltext_sql { r with fuzzy := "true" } e hs hq]
    exact fullTextSqlText_contains_fuzzyproj _ _ _ _

/-- C6 counterexample: for the full-text request with fuzzy disabled
the compiled projection is the similarity expression, not a zero
constant, refuting that the fuzzy-score value is 0. -/
theorem C6_fuzzy_score_counterexample :
    containsSub
      (compile ⟨"algebra", "", "", "", "", "", "20", "0",
          "averagerating:desc", "false", "false"⟩ []).sql.data
      ("similarity(\"title\", $1) AS fuzzy_score" : String).data = true ∧
    containsSub
      (compile ⟨"algebra", "", "", "", "", "", "20", "0",
          "averagerating:desc", "false", "false"⟩ []).sql.data
      ("0 AS fuzzy_score" : String).data = false := by
  refine ⟨by decide, by decide⟩

theorem C6_fuzzy_score_witness :
    containsSub
      (compile ⟨"algebra", "", "", "", "", "", "20", "0",
          "averagerating:desc", "false", "false"⟩ []).sql.data
      ("similarity(\"title\", $1) AS fuzzy_score" : String).data = true :=
  (C6_fuzzy_score_always_projected _ [] (by decide) (by decide) (by decide)).1

/-- C7 counterexample: on the value title:asc:x the code keeps
direction asc (second segment of the split on every colon) while the
claim, splitting at the first colon only, yields the direction
asc:x, which is not exactly asc or desc and so would collapse to
desc. -/
theorem C7_sort_split_counterexample :
    orderBy "title:asc:x" = "\"title\" asc" ∧
    orderBySpec "title:asc:x" = "\"title\" desc" ∧
    orderBy "title:asc:x" ≠ orderBySpec "title:asc:x" := by
  refine ⟨by decide, by decide, by decide⟩

/-- C7 as amended: the sort value is split on every colon; the field
is the text before the first colon; the direction collapses to desc
unless it is exactly asc or desc; an empty field falls back to the
literal averagerating DESC; and whenever the value contains at most
one colon the behavior coincides with the split-at-the-first-colon
description of the claim. -/
theorem C7_sort_parsing_amended (s : String) :
    sortFieldOf s
      = String.mk (s.data.takeWhile (fun c => !(c == Char.ofNat 58))) ∧
    (validSortDir s = "asc" ∨ validSortDir s = "desc") ∧
    (sortFieldOf s = "" → orderBy s = "\"averagerating\" DESC") ∧
    (s.data.count (Char.ofNat 58) ≤ 1 → orderBy s = orderBySpec s) := by
  refine ⟨?_, validSortDir_cases s, ?_, orderBy_agree_of_count_le_one s⟩
  · unfold sortFieldOf sortParts
    cases hsc : splitChars (Char.ofNat 58) s.data with
    | nil => exact absurd hsc (splitChars_ne_nil _ _)
    | cons s0 ss =>
      have h := splitChars_headD_eq (Char.ofNat 58) s.data
      rw [hsc] at h
      simp only [List.headD_cons] at h
      simp [h]
  · intro h
    unfold orderBy
    rw [if_neg (by simpa using h)]

theorem C7_sort_parsing_witness :
    orderBy "averagerating:desc" = orderBySpec "averagerating:desc" :=
  (C7_sort_parsing_amended "averagerating:desc").2.2.2 (by decide)

/-- C8: the tag values come first in the bound-value list, one slot
per tag in input order, followed by the scalar values in the fixed
order subject, examboard, level, type; the tag fragment is the first
filters entry, the per-tag containment predicates joined by AND; and
on the request with tags gcse,revision and subject Physics the WHERE
clause is three predicates joined by AND with bound values gcse,
revision, Physics in that order. -/
theorem C8_tag_order (r : Req) :
    (buildFilters r).values
      = parsedTags r.tags
        ++ (if r.subject != "" then [r.subject] else [])
        ++ (if r.examboard != "" then [r.examboard] else [])
        ++ (if r.level != "" then [r.level] else [])
        ++ (if r.type != "" then [r.type] else []) ∧
    (parsedTags r.tags ≠ [] →
      (buildFilters r).filters.head?
        = some (joinSep " AND "
            ((List.range' 1 (parsedTags r.tags).length).map tagFrag))) ∧
    whereClauseOf (buildFilters
        ⟨"", "gcse,revision", "Physics", "", "", "", "20", "0",
         "averagerating:desc", "true", "false"⟩)
      = "WHERE \"tags\" @> ARRAY[$1] AND \"tags\" @> ARRAY[$2] AND \"subject\" = $3" ∧
    (buildFilters ⟨"", "gcse,revision", "Physics", "", "", "", "20", "0",
        "averagerating:desc", "true", "false"⟩).values
      = ["gcse", "revision", "Physics"] :=
  ⟨buildFilters_values r, fun h => buildFilters_filters_head r h,
   by decide, by decide⟩

theorem C8_tag_order_witness :
    (buildFilters ⟨"", "gcse,revision", "Physics", "", "", "", "20", "0",
        "averagerating:desc", "true", "false"⟩).filters.head?
      = some (joinSep " AND "
          ((List.range' 1 (parsedTags "gcse,revision").length).map tagFrag)) :=
  (C8_tag_order _).2.1 (by decide)

/-- C9: the compiler is a pure function of the canonical request and,
in the semantic branch, of the embedding vector obtained for the
query: two compilations of equal inputs yield byte-identical query
text and identical ordered parameter lists.  In this embedding the
plan depends on nothing else (the source reads only the request and
the embedding response; the clock only affects the reported timing,
not the plan). -/
theorem C9_deterministic (r1 r2 : Req) (e1 e2 : List String)
    (hr : r1 = r2) (he : e1 = e2) :
    (compile r1 e1).sql = (compile r2 e2).sql ∧
    (compile r1 e1).values = (compile r2 e2).values := by
  subst hr
  subst he
  exact ⟨rfl, rfl⟩

theorem C9_deterministic_witness :
    (compile ⟨"a", "", "", "", "", "", "20", "0", "averagerating:desc",
        "true", "false"⟩ ["1"]).sql
      = (compile ⟨"a", "", "", "", "", "", "20", "0", "averagerating:desc",
          "true", "false"⟩ ["1"]).sql ∧
    (compile ⟨"a", "", "", "", "", "", "20", "0", "averagerating:desc",
        "true", "false"⟩ ["1"]).values
      = (compile ⟨"a", "", "", "", "", "", "20", "0", "averagerating:desc",
          "true", "false"⟩ ["1"]).values :=
  C9_deterministic _ _ _ _ rfl rfl

/-- C10: in the full-text strategy the projected rank and fuzzy-score
columns reference the hard-coded first placeholder; the first bound
parameter is the first filter value whenever any tag or scalar filter
is present (and then the first slot is not the query slot, which is
one past the filter values), and it is the query text itself exactly
when no filter predicate exists. -/
theorem C10_hardcoded_projection (r : Req) (e : List String)
    (hq : r.query ≠ "") (hs : ¬r.semantic = "true") :
    containsSub (compile r e).sql.data
      ("ts_rank(\"search_tsv\", plainto_tsquery(\x27english\x27, $1)) AS rank"
        : String).data = true ∧
    containsSub (compile r e).sql.data
      ("similarity(\"title\", $1) AS fuzzy_score" : String).data = true ∧
    ((buildFilters r).values ≠ [] →
      (compile r e).values.head? = (buildFilters r).values.head? ∧
      (buildFilters r).values.length + 1 ≠ 1) ∧
    ((buildFilters r).values = [] → (compile r e).values.head? = some r.query) ∧
    (compile r e).values[(buildFilters r).values.length]? = some r.query := by
  have hvals := compile_fulltext_values e hs hq
  refine ⟨?_, ?_, ?_, ?_, ?_⟩
  · rw [compile_fulltext_sql e hs hq]
    exact fullTextSqlText_contains_rankproj _ _ _ _
  · rw [compile_fulltext_sql e hs hq]
    exact fullTextSqlText_contains_fuzzyproj _ _ _ _
  · intro hne
    constructor
    · rw [hvals]
      cases hfv : (buildFilters r).values with
      | nil => exact absurd hfv hne
      | cons v vs => simp
    · have hpos : (buildFilters r).values.length > 0 := List.length_pos.mpr hne
      omega
  · intro hnil
    rw [hvals, hnil]
    by_cases hf : r.fuzzy = "true"
    · rw [searchCondition_eq_true _ _ _ hf]
      simp
    · rw [searchCondition_eq_false _ _ _ hf]
      simp
  · rw [hvals, List.getElem?_append]
    have hlen : (buildFilters r).values.length
        < ((buildFilters r).values
            ++ (searchConditionOf r.fuzzy r.query (buildFilters r).paramIndex).2.1).length := by
      by_cases hf : r.fuzzy = "true"
      · rw [searchCondition_eq_true _ _ _ hf]; simp
      · rw [searchCondition_eq_false _ _ _ hf]; simp
    rw [if_pos hlen, List.getElem?_append, if_neg (by omega), Nat.sub_self]
    by_cases hf : r.fuzzy = "true"
    · rw [searchCondition_eq_true _ _ _ hf]
      simp
    · rw [searchCondition_eq_false _ _ _ hf]
      simp

theorem C10_hardcoded_projection_witness :
    (compile ⟨"algebra", "gcse", "", "", "", "", "20", "0",
        "averagerating:desc", "true", "false"⟩ []).values[
      (buildFilters ⟨"algebra", "gcse", "", "", "", "", "20", "0",
          "averagerating:desc", "true", "false"⟩).values.length]?
      = some "algebra" :=
  (C10_hardcoded_projection
    ⟨"algebra", "gcse", "", "", "", "", "20", "0",
     "averagerating:desc", "true", "false"⟩ [] (by decide) (by decide)).2.2.2.2

/-- C1 counterexample: the claim as stated fails on the code in two
ways.  In the full-text branch the compiled text repeats the first
placeholder: for a no-filter full-text request with fuzzy disabled the
parameter list has three entries but the placeholder occurrences are
1, 1, 1, 2, 3 (the projection hard-codes the first placeholder twice),
not 1, 2, 3.  In the semantic branch the occurrence order differs from
the append order: with one filter, the vector placeholder (number two)
occurs in the SELECT clause before the filter placeholder, giving
occurrences 2, 1, 3, 4. -/
theorem C1_numbering_counterexample :
    (compile ⟨"algebra", "", "", "", "", "", "20", "0", "averagerating:desc",
        "false", "false"⟩ []).values.length = 3 ∧
    extract (compile ⟨"algebra", "", "", "", "", "", "20", "0",
        "averagerating:desc", "false", "false"⟩ []).sql
      = ["1", "1", "1", "2", "3"] ∧
    extract (compile ⟨"algebra", "", "", "", "", "", "20", "0",
        "averagerating:desc", "false", "false"⟩ []).sql
      ≠ (List.range' 1 3).map (fun i => toString i) ∧
    (compile ⟨"algebra", "", "Maths", "", "", "", "20", "0",
        "averagerating:desc", "true", "true"⟩ ["0.1"]).values.length = 4 ∧
    extract (compile ⟨"algebra", "", "Maths", "", "", "", "20", "0",
        "averagerating:desc", "true", "true"⟩ ["0.1"]).sql = ["2", "1", "3", "4"] ∧
    extract (compile ⟨"algebra", "", "Maths", "", "", "", "20", "0",
        "averagerating:desc", "true", "true"⟩ ["0.1"]).sql
      ≠ (List.range' 1 4).map (fun i => toString i) := by
  refine ⟨by decide, by decide, by decide, by decide, by decide, by decide⟩

/-- C1 as amended: in every branch each appended value is bound to a
strictly sequential placeholder, one through the parameter-list
length, with no gaps or repeats in the numbering; the limit and offset
values are appended last, in that order, and in the semantic branch
the query-vector parameter immediately precedes them, so the highest
placeholder index equals the length of the parameter list.  However
the textual occurrences do not always read back in append order: in
the semantic branch the vector placeholder (index one past the filter
count) occurs in the SELECT clause before the filter placeholders, and
in the full-text branch the projection additionally repeats the
hard-coded first placeholder twice before the sequential occurrences.
The sort field is assumed free of dollar signs so that the raw ORDER
BY interpolation (see C4) cannot inject placeholder text. -/
theorem C1_parameter_numbering (r : Req) (e : List String)
    (hsort : ∀ c ∈ r.sort.data, ¬c = Char.ofNat 36) :
    (r.semantic = "true" → r.query ≠ "" →
      extract (compile r e).sql
        = toString ((buildFilters r).values.length + 1)
          :: (((List.range' 1 (buildFilters r).values.length).map (fun i => toString i))
              ++ [toString ((buildFilters r).values.length + 2),
                  toString ((buildFilters r).values.length + 3)]) ∧
      (compile r e).values
        = (buildFilters r).values ++ ["[" ++ joinSep "," e ++ "]", r.limit, r.offset] ∧
      (compile r e).values.length = (buildFilters r).values.length + 3) ∧
    (¬r.semantic = "true" → r.query ≠ "" →
      extract (compile r e).sql
        = toString 1 :: toString 1 ::
          ((List.range' 1 (compile r e).values.length).map (fun i => toString i)) ∧
      (compile r e).values
        = (buildFilters r).values
          ++ (if r.fuzzy = "true" then [r.query, r.query] else [r.query])
          ++ [r.limit, r.offset]) ∧
    (r.query = "" →
      extract (compile r e).sql
        = (List.range' 1 ((buildFilters r).values.length + 2)).map (fun i => toString i) ∧
      (compile r e).values = (buildFilters r).values ++ [r.limit, r.offset] ∧
      (compile r e).values.length = (buildFilters r).values.length + 2) := by
  refine ⟨fun hs hq => ⟨extract_compile_semantic e hs hq hsort,
      compile_semantic_values e hs hq, ?_⟩,
    fun hs hq => ⟨extract_compile_fulltext e hs hq hsort, ?_⟩,
    fun hq => ⟨extract_compile_filterOnly e hq hsort,
      compile_filterOnly_values e hq, ?_⟩⟩
  · rw [compile_semantic_values e hs hq]
    simp
  · rw [compile_fulltext_values e hs hq]
    by_cases hf : r.fuzzy = "true"
    · rw [searchCondition_eq_true _ _ _ hf, if_pos hf]
    · rw [searchCondition_eq_false _ _ _ hf, if_neg hf]
  · rw [compile_filterOnly_values e hq]
    simp

theorem C1_parameter_numbering_witness :
    extract (compile ⟨"algebra", "gcse,revision", "Physics", "", "", "", "10", "5",
        "averagerating:desc", "true", "false"⟩ []).sql
      = toString 1 :: toString 1 ::
        ((List.range' 1 (compile ⟨"algebra", "gcse,revision", "Physics", "", "", "",
            "10", "5", "averagerating:desc", "true", "false"⟩ []).values.length).map
          (fun i => toString i)) :=
  ((C1_parameter_numbering _ [] (by decide)).2.1 (by decide) (by decide)).1

end GLSearch
